import Mathlib

/-!
Verification development for the pdf-view repository.

Shallow embedding of the quote locator, highlight projector, page-window
manager and render tracker found in `src/PDFPreview.tsx` and `src/App.tsx`.
Strings are modelled as lists of characters (`Str`), JavaScript numbers as
rationals (`ℚ`) for geometry and similarity scores and as integers (`ℤ`)
for page indices.  Each definition is a direct translation of the
corresponding source function.
-/

/-- JavaScript strings, modelled as lists of characters. -/
abbrev Str := List Char

/-- Conversion from a Lean string literal to the model type. -/
def str (s : String) : Str := s.data

/-- The character class matched by the JavaScript regular expression `\s`
(restricted to the ASCII whitespace characters that occur in practice). -/
def isJsWhitespace (c : Char) : Bool :=
  c = ' ' || c = '\t' || c = '\n' || c = '\r' || c = '\x0b' || c = '\x0c'

/-- `String.prototype.toLowerCase`, restricted to ASCII. -/
def toLowerStr (s : Str) : Str := s.map Char.toLower

/-- `String.prototype.trim`: drop whitespace from both ends. -/
def trimStr (s : Str) : Str :=
  ((s.dropWhile (fun c => isJsWhitespace c)).reverse.dropWhile
    (fun c => isJsWhitespace c)).reverse

/-- `str.replace(/\s+/g, '')`: remove every whitespace character. -/
def stripWhitespace (s : Str) : Str := s.filter (fun c => !isJsWhitespace c)

/-- The list of successive character bigrams of a string, in order. -/
def bigrams : Str → List (Char × Char)
  | [] => []
  | [_] => []
  | a :: b :: rest => (a, b) :: bigrams (b :: rest)

/-- Size of the multiset intersection of two bigram lists, computed the way
`string-similarity` consumes per-bigram counts: each bigram of the second
list is matched against a remaining occurrence in the first list. -/
def interSize : List (Char × Char) → List (Char × Char) → Nat
  | _, [] => 0
  | as, b :: bs => if b ∈ as then 1 + interSize (as.erase b) bs else interSize as bs

/-- `stringSimilarity.compareTwoStrings` from the `string-similarity`
package: strip whitespace, return 1 for identical strings, 0 when either
string is shorter than two characters, otherwise the Sørensen–Dice
coefficient over character-bigram multisets. -/
def compareTwoStrings (first second : Str) : ℚ :=
  let f := stripWhitespace first
  let s := stripWhitespace second
  if f = s then 1
  else if f.length < 2 ∨ s.length < 2 then 0
  else (2 * (interSize (bigrams f) (bigrams s)) : ℚ) / ((f.length + s.length - 2 : ℕ) : ℚ)

/-- A text token extracted from a PDF page (`PDFTextItem` in the source).
The unused `dir` and `fontName` fields are omitted; `transform4` and
`transform5` stand for `transform[4]` and `transform[5]`. -/
structure Token where
  str : Str
  hasEOL : Bool
  transform4 : ℚ
  transform5 : ℚ
  width : ℚ
  height : ℚ
deriving DecidableEq, Repr

/-- Result type of the quote locators: a similarity score together with the
matched consecutive lines (`{ score, lines }` in the source). -/
structure Match where
  score : ℚ
  lines : List (List Token)
deriving DecidableEq, Repr

/-- `getTextSegment`: join the `str` fields of a line's tokens with single
spaces (identical in both source files). -/
def getTextSegment : List Token → Str
  | [] => []
  | [item] => item.str
  | item :: rest => item.str ++ ' ' :: getTextSegment rest

/-- The normalized text of one line, as built inside the locator loops:
`getTextSegment(lines[j]).toLowerCase().trim()`. -/
def normalizeSeg (line : List Token) : Str :=
  trimStr (toLowerStr (getTextSegment line))

/-- `prepareTextLines` inner loop: group tokens into lines at `hasEOL`
markers, flushing a trailing non-empty line (identical in both files). -/
def prepareTextLinesGo (lines : List (List Token)) (currentLine : List Token) :
    List Token → List (List Token)
  | [] => if 0 < currentLine.length then lines ++ [currentLine] else lines
  | item :: rest =>
    let currentLine' := currentLine ++ [item]
    if item.hasEOL then prepareTextLinesGo (lines ++ [currentLine']) [] rest
    else prepareTextLinesGo lines currentLine' rest

/-- `prepareTextLines`: the lines derived from a page's token list. -/
def prepareTextLines (textItems : List Token) : List (List Token) :=
  prepareTextLinesGo [] [] textItems

namespace PDFPreview

/-- Inner `j` loop of `findBestMatch` in `PDFPreview.tsx`: extend the span
line by line, update the best match whenever `score > 0.8`, and break once
`combinedText.length > normalizedQuote.length * 1.5`.  `taken` holds the
lines consumed since the start index `i`, so `taken.isEmpty` is the source
condition `j > i` negated. -/
def findBestMatchGo (nq : Str) (combined : Str) (taken : List (List Token))
    (best : Match) : List (List Token) → Match
  | [] => best
  | l :: rest =>
    let combined' := combined ++ (if taken.isEmpty then [] else [' ']) ++ normalizeSeg l
    let taken' := taken ++ [l]
    let score := compareTwoStrings combined' nq
    let best' := if (8 : ℚ) / 10 < score then ⟨score, taken'⟩ else best
    if (nq.length : ℚ) * (3 / 2) < (combined'.length : ℚ) then best'
    else findBestMatchGo nq combined' taken' best' rest

/-- Outer `i` loop of `findBestMatch` in `PDFPreview.tsx`: run the inner
loop from every start line. -/
def findBestMatchOuter (nq : Str) (best : Match) : List (List Token) → Match
  | [] => best
  | l :: rest => findBestMatchOuter nq (findBestMatchGo nq [] [] best (l :: rest)) rest

/-- `findBestMatch` from `PDFPreview.tsx`: best match initialised to
`{ score: -1, lines: [] }`, quote normalized by `toLowerCase().trim()`. -/
def findBestMatch (lines : List (List Token)) (quote : Str) : Match :=
  findBestMatchOuter (trimStr (toLowerStr quote)) ⟨-1, []⟩ lines

end PDFPreview

namespace App

/-- Inner `j` loop of `findBestMatch` in `App.tsx`: identical to the
`PDFPreview.tsx` loop except that the best match is updated whenever
`score > bestMatch.score`. -/
def findBestMatchGo (nq : Str) (combined : Str) (taken : List (List Token))
    (best : Match) : List (List Token) → Match
  | [] => best
  | l :: rest =>
    let combined' := combined ++ (if taken.isEmpty then [] else [' ']) ++ normalizeSeg l
    let taken' := taken ++ [l]
    let score := compareTwoStrings combined' nq
    let best' := if best.score < score then ⟨score, taken'⟩ else best
    if (nq.length : ℚ) * (3 / 2) < (combined'.length : ℚ) then best'
    else findBestMatchGo nq combined' taken' best' rest

/-- Outer `i` loop of `findBestMatch` in `App.tsx`. -/
def findBestMatchOuter (nq : Str) (best : Match) : List (List Token) → Match
  | [] => best
  | l :: rest => findBestMatchOuter nq (findBestMatchGo nq [] [] best (l :: rest)) rest

/-- `findBestMatch` from `App.tsx`. -/
def findBestMatch (lines : List (List Token)) (quote : Str) : Match :=
  findBestMatchOuter (trimStr (toLowerStr quote)) ⟨-1, []⟩ lines

end App

/-! ### Spec-side enumeration of candidate spans

The specification describes the locator as a bounded enumeration: for each
start line `i`, the end line `j` grows until the combined text exceeds
1.5 × the quote length, each step yielding a `(score, span)` candidate.
`enumSpans` materialises that enumeration in loop order; it is the
spec-side object against which the two `findBestMatch` folds are compared. -/

/-- All candidates produced from one start line, in the order the inner
loop of the locator visits them (the entry at which the length bound
triggers is still scored before the loop breaks). -/
def enumSpansGo (nq : Str) (combined : Str) (taken : List (List Token)) :
    List (List Token) → List Match
  | [] => []
  | l :: rest =>
    let combined' := combined ++ (if taken.isEmpty then [] else [' ']) ++ normalizeSeg l
    let taken' := taken ++ [l]
    let e : Match := ⟨compareTwoStrings combined' nq, taken'⟩
    if (nq.length : ℚ) * (3 / 2) < (combined'.length : ℚ) then [e]
    else e :: enumSpansGo nq combined' taken' rest

/-- The whole bounded enumeration of candidate spans, start line by start
line, in the order the locator loops visit them. -/
def enumSpans (nq : Str) : List (List Token) → List Match
  | [] => []
  | l :: rest => enumSpansGo nq [] [] (l :: rest) ++ enumSpans nq rest

/-- One update step of the `App.tsx` locator: keep the strictly better
candidate (`score > bestMatch.score`), so earlier candidates win ties. -/
def stepMax (best e : Match) : Match :=
  if best.score < e.score then e else best

/-- One update step of the `PDFPreview.tsx` locator: adopt any candidate
scoring strictly above the fixed 0.8 threshold. -/
def stepThresh (best e : Match) : Match :=
  if (8 : ℚ) / 10 < e.score then e else best

/-! ### Highlight projector (`drawHighlight`, `applyHighlight`) -/

/-- An axis-aligned rectangle; used both for the `ImageArea` boxes parsed
from `paintImageXObject` operators and for the highlight rectangles. -/
structure Rect where
  x : ℚ
  y : ℚ
  width : ℚ
  height : ℚ
deriving DecidableEq, Repr

/-- The rectangle computed per token in `drawHighlight`:
`[x, y, w, h] = [transform[4], canvasHeight - transform[5] - height, width, height]`. -/
def highlightRect (canvasHeight : ℚ) (item : Token) : Rect :=
  ⟨item.transform4, canvasHeight - item.transform5 - item.height, item.width, item.height⟩

/-- The per-image test inside `drawHighlight` of `PDFPreview.tsx`:
`x < imageArea.x + imageArea.width && x + w > imageArea.x && y < imageArea.y + imageArea.height && y + h > imageArea.y`. -/
def intersectsArea (r : Rect) (imageArea : Rect) : Bool :=
  decide (r.x < imageArea.x + imageArea.width) &&
  decide (imageArea.x < r.x + r.width) &&
  decide (r.y < imageArea.y + imageArea.height) &&
  decide (imageArea.y < r.y + r.height)

/-- `imageAreas.some((imageArea) => ...)` from `drawHighlight`. -/
def intersectsWithImage (imageAreas : List Rect) (r : Rect) : Bool :=
  imageAreas.any (fun imageArea => intersectsArea r imageArea)

namespace PDFPreview

/-- `drawHighlight` from `PDFPreview.tsx`, modelled as the ordered list of
rectangles passed to `context.fillRect`: each token's flipped rectangle is
emitted unless it intersects some configured image area. -/
def drawHighlight (imageAreas : List Rect) (canvasHeight : ℚ) :
    List Token → List Rect
  | [] => []
  | item :: rest =>
    let r := highlightRect canvasHeight item
    if intersectsWithImage imageAreas r then drawHighlight imageAreas canvasHeight rest
    else r :: drawHighlight imageAreas canvasHeight rest

/-- The match-dependent tail of `applyHighlight` from `PDFPreview.tsx`:
after clearing the canvas it runs the locator and publishes nothing when
the matched span is empty, otherwise the rectangles drawn for the
flattened matched lines. -/
def applyHighlight (imageAreas : List Rect) (canvasHeight : ℚ)
    (lines : List (List Token)) (quote : Str) : List Rect :=
  let bestMatch := findBestMatch lines quote
  if bestMatch.lines.isEmpty then []
  else drawHighlight imageAreas canvasHeight bestMatch.lines.flatten

end PDFPreview

/-! ### Window manager (`loadVisiblePages`, `handleScroll` in `App.tsx`) -/

/-- `[...new Set(list)]`: deduplicate keeping the first occurrence of each
element, in insertion order. -/
def jsSetDedupGo {α : Type} [DecidableEq α] (seen : List α) : List α → List α
  | [] => []
  | x :: xs =>
    if x ∈ seen then jsSetDedupGo seen xs
    else x :: jsSetDedupGo (seen ++ [x]) xs

/-- `[...new Set(list)]`. -/
def jsSetDedup {α : Type} [DecidableEq α] (l : List α) : List α :=
  jsSetDedupGo [] l

/-- Insert an integer into a sorted list (helper for the numeric sort). -/
def insertSorted (x : ℤ) : List ℤ → List ℤ
  | [] => [x]
  | y :: ys => if x ≤ y then x :: y :: ys else y :: insertSorted x ys

/-- `list.sort((a, b) => a - b)`: ascending numeric sort.  The model sorts
by insertion; after deduplication the elements are distinct, so any
correct sort produces the same list as the JavaScript engine's. -/
def sortInts (l : List ℤ) : List ℤ := l.foldr insertSorted []

/-- `const PAGES_TO_LOAD = 5` from `App.tsx`. -/
def PAGES_TO_LOAD : ℤ := 5

/-- `loadVisiblePages` from `App.tsx`, generalised over the radius
constant: compute `start = max(1, center - r)` and
`end = min(numPages, center + r)`, build the contiguous range, and store
the sorted union with the previous window. -/
def loadVisiblePagesR (pagesToLoad numPages centerPage : ℤ)
    (prevPages : List ℤ) : List ℤ :=
  let start := max 1 (centerPage - pagesToLoad)
  let stop := min numPages (centerPage + pagesToLoad)
  let newPages := (List.range (stop - start + 1).toNat).map (fun i : ℕ => start + (i : ℤ))
  sortInts (jsSetDedup (prevPages ++ newPages))

/-- `loadVisiblePages` from `App.tsx` (radius fixed to `PAGES_TO_LOAD`). -/
def loadVisiblePages (numPages centerPage : ℤ) (prevPages : List ℤ) : List ℤ :=
  loadVisiblePagesR PAGES_TO_LOAD numPages centerPage prevPages

/-- The page-window effect of one debounced `handleScroll` run in
`App.tsx`, generalised over the radius: one `loadVisiblePages(currentPage)`
call, followed by the force-expansion call near the top
(`currentPage - r <= 1`) or near the bottom (`currentPage + r >= numPages`). -/
def handleScrollWindowR (pagesToLoad numPages currentPage : ℤ)
    (prev : List ℤ) : List ℤ :=
  let w1 := loadVisiblePagesR pagesToLoad numPages currentPage prev
  if currentPage - pagesToLoad ≤ 1 then
    loadVisiblePagesR pagesToLoad numPages (max 1 (currentPage - pagesToLoad)) w1
  else if numPages ≤ currentPage + pagesToLoad then
    loadVisiblePagesR pagesToLoad numPages (min numPages (currentPage + pagesToLoad)) w1
  else w1

/-- The page-window effect of one `handleScroll` run (radius fixed). -/
def handleScrollWindow (numPages currentPage : ℤ) (prev : List ℤ) : List ℤ :=
  handleScrollWindowR PAGES_TO_LOAD numPages currentPage prev

/-- A window-manager call: an initial seed around the focal page or a
scroll-driven expansion. -/
inductive PageEvent where
  | seed (numPages focalPage : ℤ)
  | scroll (numPages currentPage : ℤ)

/-- Apply one window-manager call to the current window. -/
def applyPageEvent (w : List ℤ) : PageEvent → List ℤ
  | .seed n c => loadVisiblePages n c w
  | .scroll n c => handleScrollWindow n c w

/-- Run a sequence of window-manager calls. -/
def runPageEvents (w : List ℤ) (evs : List PageEvent) : List ℤ :=
  evs.foldl applyPageEvent w

/-! ### Render tracker (`onRenderSuccess`, completion, progress) -/

/-- `onRenderSuccess` from `PDFPreview.tsx`:
`setRenderedPages((prev) => [...new Set([...prev, pageNumber])])`. -/
def onRenderSuccess (prev : List ℕ) (pageNumber : ℕ) : List ℕ :=
  jsSetDedup (prev ++ [pageNumber])

/-- The completion condition from `PDFPreview.tsx`
(`numPages > 0 && renderedPages.length === numPages`). -/
def loadingComplete (renderedPages : List ℕ) (numPages : ℕ) : Prop :=
  0 < numPages ∧ renderedPages.length = numPages

instance (renderedPages : List ℕ) (numPages : ℕ) :
    Decidable (loadingComplete renderedPages numPages) :=
  inferInstanceAs (Decidable (_ ∧ _))

/-- The progress value rendered by the loading overlay of
`PDFPreview.tsx`, before `Math.round`:
`renderedPages.length ? (renderedPages.length / numPages) * 95 : 0`
(a percentage). -/
def progressPercent (renderedPages : List ℕ) (numPages : ℕ) : ℚ :=
  if renderedPages.length = 0 then 0
  else ((renderedPages.length : ℚ) / (numPages : ℚ)) * 95

/-! ### Membership lemmas for the window manager -/

theorem mem_jsSetDedupGo {α : Type} [DecidableEq α] (x : α) :
    ∀ (l seen : List α), x ∈ jsSetDedupGo seen l ↔ (x ∈ l ∧ x ∉ seen) := by
  intro l
  induction l with
  | nil => intro seen; simp [jsSetDedupGo]
  | cons y ys ih =>
    intro seen
    by_cases hy : y ∈ seen
    · rw [jsSetDedupGo, if_pos hy, ih seen, List.mem_cons]
      constructor
      · rintro ⟨hys, hns⟩; exact ⟨Or.inr hys, hns⟩
      · rintro ⟨rfl | hys, hns⟩
        · exact absurd hy hns
        · exact ⟨hys, hns⟩
    · rw [jsSetDedupGo, if_neg hy, List.mem_cons, ih (seen ++ [y]), List.mem_cons]
      simp only [List.mem_append, List.mem_singleton]
      by_cases hxy : x = y
      · subst hxy; tauto
      · tauto

theorem mem_jsSetDedup {α : Type} [DecidableEq α] (x : α) (l : List α) :
    x ∈ jsSetDedup l ↔ x ∈ l := by
  rw [jsSetDedup, mem_jsSetDedupGo]
  simp

theorem mem_insertSorted (x a : ℤ) :
    ∀ (l : List ℤ), x ∈ insertSorted a l ↔ x = a ∨ x ∈ l := by
  intro l
  induction l with
  | nil => simp [insertSorted]
  | cons y ys ih =>
    rw [insertSorted]
    split
    · simp [List.mem_cons]
    · rw [List.mem_cons, ih, List.mem_cons]
      tauto

theorem mem_sortInts (x : ℤ) : ∀ (l : List ℤ), x ∈ sortInts l ↔ x ∈ l := by
  intro l
  induction l with
  | nil => simp [sortInts]
  | cons y ys ih =>
    rw [sortInts, List.foldr_cons, mem_insertSorted]
    rw [sortInts] at ih
    rw [ih, List.mem_cons]

theorem mem_intRange (start stop p : ℤ) :
    p ∈ (List.range (stop - start + 1).toNat).map (fun i : ℕ => start + (i : ℤ)) ↔
      (start ≤ p ∧ p ≤ stop) := by
  simp only [List.mem_map, List.mem_range]
  constructor
  · rintro ⟨i, hi, rfl⟩
    omega
  · rintro ⟨hlo, hhi⟩
    exact ⟨(p - start).toNat, by omega, by omega⟩

theorem mem_loadVisiblePagesR (pagesToLoad numPages centerPage : ℤ)
    (prevPages : List ℤ) (p : ℤ) :
    p ∈ loadVisiblePagesR pagesToLoad numPages centerPage prevPages ↔
      (p ∈ prevPages ∨
        (max 1 (centerPage - pagesToLoad) ≤ p ∧
          p ≤ min numPages (centerPage + pagesToLoad))) := by
  simp only [loadVisiblePagesR, mem_sortInts, mem_jsSetDedup, List.mem_append,
    mem_intRange]

theorem mem_handleScrollWindowR (pagesToLoad numPages currentPage : ℤ)
    (prev : List ℤ) (p : ℤ) (h1 : 1 ≤ currentPage) (h2 : currentPage ≤ numPages)
    (h3 : 0 ≤ pagesToLoad) :
    p ∈ handleScrollWindowR pagesToLoad numPages currentPage prev ↔
      (p ∈ prev ∨
        (max 1 (currentPage - pagesToLoad) ≤ p ∧
          p ≤ min numPages (currentPage + pagesToLoad))) := by
  simp only [handleScrollWindowR]
  split_ifs with hb1 hb2 <;> simp only [mem_loadVisiblePagesR] <;>
    by_cases hp : p ∈ prev <;> simp only [hp, true_or, false_or, iff_true] <;> try tauto
  · constructor
    · rintro (h | h)
      · exact h
      · omega
    · exact Or.inl
  · constructor
    · rintro (h | h)
      · exact h
      · omega
    · exact Or.inl

/-- C7: every seed call, and (for a current page inside the document and a
nonnegative radius) every expand call, inserts exactly the contiguous page
range `[max(1, center - radius) .. min(totalPages, center + radius)]` into
the window, as a union with the existing window; with totalPages = 10,
focal = 5, radius = 5 the seed yields {1..10}. -/
theorem spec2_C7_theorem (numPages centerPage radius : ℤ) (prev : List ℤ)
    (h1 : 1 ≤ centerPage) (h2 : centerPage ≤ numPages) (h3 : 0 ≤ radius) :
    (∀ p : ℤ, p ∈ loadVisiblePagesR radius numPages centerPage prev ↔
      (p ∈ prev ∨ (max 1 (centerPage - radius) ≤ p ∧
        p ≤ min numPages (centerPage + radius)))) ∧
    (∀ p : ℤ, p ∈ handleScrollWindowR radius numPages centerPage prev ↔
      (p ∈ prev ∨ (max 1 (centerPage - radius) ≤ p ∧
        p ≤ min numPages (centerPage + radius)))) ∧
    loadVisiblePages 10 5 [] = [1, 2, 3, 4, 5, 6, 7, 8, 9, 10] := by
  refine ⟨fun p => mem_loadVisiblePagesR radius numPages centerPage prev p,
    fun p => mem_handleScrollWindowR radius numPages centerPage prev p h1 h2 h3,
    by decide⟩

/-- Witness for C7 at totalPages = 10, focal = 5, radius = 5 (Scenario C). -/
theorem spec2_C7_witness :
    ((3 : ℤ) ∈ loadVisiblePagesR 5 10 5 [] ↔
      ((3 : ℤ) ∈ ([] : List ℤ) ∨ (max 1 (5 - 5) ≤ (3 : ℤ) ∧ (3 : ℤ) ≤ min 10 (5 + 5)))) ∧
    loadVisiblePages 10 5 [] = [1, 2, 3, 4, 5, 6, 7, 8, 9, 10] :=
  ⟨(spec2_C7_theorem 10 5 5 [] (by decide) (by decide) (by decide)).1 3,
    (spec2_C7_theorem 10 5 5 [] (by decide) (by decide) (by decide)).2.2⟩

theorem subset_loadVisiblePagesR (pagesToLoad numPages centerPage : ℤ)
    (prev : List ℤ) (p : ℤ) (hp : p ∈ prev) :
    p ∈ loadVisiblePagesR pagesToLoad numPages centerPage prev :=
  (mem_loadVisiblePagesR pagesToLoad numPages centerPage prev p).mpr (Or.inl hp)

theorem subset_handleScrollWindowR (pagesToLoad numPages currentPage : ℤ)
    (prev : List ℤ) (p : ℤ) (hp : p ∈ prev) :
    p ∈ handleScrollWindowR pagesToLoad numPages currentPage prev := by
  simp only [handleScrollWindowR]
  split_ifs <;>
    first
    | exact subset_loadVisiblePagesR _ _ _ _ _
        (subset_loadVisiblePagesR _ _ _ _ _ hp)
    | exact subset_loadVisiblePagesR _ _ _ _ _ hp

theorem subset_applyPageEvent (w : List ℤ) (e : PageEvent) (p : ℤ) (hp : p ∈ w) :
    p ∈ applyPageEvent w e := by
  cases e with
  | seed n c => exact subset_loadVisiblePagesR _ _ _ _ _ hp
  | scroll n c => exact subset_handleScrollWindowR _ _ _ _ _ hp

/-- C8: across any finite sequence of seed and expand calls the page window
only grows: every page present before the calls is still present after
them (pages are only ever inserted, never evicted). -/
theorem spec2_C8_theorem (w : List ℤ) (evs : List PageEvent) (p : ℤ)
    (hp : p ∈ w) : p ∈ runPageEvents w evs := by
  induction evs generalizing w with
  | nil => exact hp
  | cons e evs ih =>
    rw [runPageEvents, List.foldl_cons]
    exact ih (applyPageEvent w e) (subset_applyPageEvent w e p hp)

/-- Witness for C8: page 45 survives a seed followed by two scrolls. -/
theorem spec2_C8_witness :
    (45 : ℤ) ∈ runPageEvents [45]
      [PageEvent.scroll 100 1, PageEvent.seed 100 80, PageEvent.scroll 100 99] :=
  spec2_C8_theorem [45] _ 45 (by decide)

/-- C3 fails on the code: seeding at focal page 50 with totalPages = 100
does materialize {45..55}, but the subsequent expand at current page 1
yields only {1..6} ∪ {45..55} — page 7 (among others in {7..44}) is
missing from the window the claim says equals {1..55}. -/
theorem spec2_C3_counterexample :
    loadVisiblePages 100 50 [] =
      [45, 46, 47, 48, 49, 50, 51, 52, 53, 54, 55] ∧
    (7 : ℤ) ∉ handleScrollWindow 100 1 (loadVisiblePages 100 50 []) ∧
    handleScrollWindow 100 1 (loadVisiblePages 100 50 []) ≠
      [1, 2, 3, 4, 5, 6, 7, 8, 9, 10, 11, 12, 13, 14, 15, 16, 17, 18, 19, 20,
        21, 22, 23, 24, 25, 26, 27, 28, 29, 30, 31, 32, 33, 34, 35, 36, 37,
        38, 39, 40, 41, 42, 43, 44, 45, 46, 47, 48, 49, 50, 51, 52, 53, 54,
        55] := by
  refine ⟨by decide, by decide, by decide⟩

/-- C3 amended: the seed yields {45..55} and the subsequent expand at
current page 1 yields {1..6} ∪ {45..55} (the gap {7..44} is not filled). -/
theorem spec2_C3_amended_theorem :
    loadVisiblePages 100 50 [] =
      [45, 46, 47, 48, 49, 50, 51, 52, 53, 54, 55] ∧
    handleScrollWindow 100 1 (loadVisiblePages 100 50 []) =
      [1, 2, 3, 4, 5, 6, 45, 46, 47, 48, 49, 50, 51, 52, 53, 54, 55] := by
  refine ⟨by decide, by decide⟩

/-- C9: on a page with zero text tokens the derived line list is empty and
the locator returns score -1 with an empty matched span, for every quote;
the locator is a total function, so no error is possible. -/
theorem spec2_C9_theorem :
    ∀ quote : Str,
      prepareTextLines [] = [] ∧
      PDFPreview.findBestMatch (prepareTextLines []) quote =
        ⟨-1, []⟩ := by
  intro quote
  exact ⟨rfl, rfl⟩

/-! ### Highlight projector claims -/

/-- The overlap notion of the specification: the x-ranges and the y-ranges
of the two boxes both intersect, with strict inequalities on all four
bounds. -/
def overlapsFour (r imageArea : Rect) : Prop :=
  r.x < imageArea.x + imageArea.width ∧ imageArea.x < r.x + r.width ∧
  r.y < imageArea.y + imageArea.height ∧ imageArea.y < r.y + r.height

theorem drawHighlight_eq_filter (imageAreas : List Rect) (canvasHeight : ℚ) :
    ∀ items : List Token,
      PDFPreview.drawHighlight imageAreas canvasHeight items =
        (items.map (highlightRect canvasHeight)).filter
          (fun r => !intersectsWithImage imageAreas r) := by
  intro items
  induction items with
  | nil => rfl
  | cons item rest ih =>
    rw [PDFPreview.drawHighlight, List.map_cons, List.filter_cons]
    by_cases h : intersectsWithImage imageAreas (highlightRect canvasHeight item)
    · simp only [h, Bool.not_true, if_true, ih]
      rfl
    · simp only [Bool.not_eq_true] at h
      simp only [h, Bool.not_false, if_false, ih]
      rfl

theorem intersectsArea_false_iff (r a : Rect) :
    intersectsArea r a = false ↔ ¬ overlapsFour r a := by
  rw [intersectsArea, overlapsFour]
  simp only [Bool.and_eq_false_iff, decide_eq_false_iff_not]
  constructor
  · rintro (((h | h) | h) | h) <;> tauto
  · intro h
    by_cases h1 : r.x < a.x + a.width
    · by_cases h2 : a.x < r.x + r.width
      · by_cases h3 : r.y < a.y + a.height
        · exact Or.inr (fun h4 => h ⟨h1, h2, h3, h4⟩)
        · exact Or.inl (Or.inr h3)
      · exact Or.inl (Or.inl (Or.inr h2))
    · exact Or.inl (Or.inl (Or.inl h1))

theorem drawHighlight_no_overlap (imageAreas : List Rect) (canvasHeight : ℚ)
    (items : List Token) (r : Rect)
    (hr : r ∈ PDFPreview.drawHighlight imageAreas canvasHeight items)
    (a : Rect) (ha : a ∈ imageAreas) : ¬ overlapsFour r a := by
  rw [drawHighlight_eq_filter] at hr
  have hpred := List.of_mem_filter hr
  simp only [Bool.not_eq_true', intersectsWithImage, List.any_eq_false] at hpred
  exact (intersectsArea_false_iff r a).mp (Bool.eq_false_iff.mpr (hpred a ha))

/-- C2: `drawHighlight` never draws a rectangle that overlaps a configured
image region — overlap being the strict inequalities on all four bounds,
which under positive extents is exactly a nonzero-measure intersection of
both the x-ranges and the y-ranges — and it emits precisely the
non-overlapping token rectangles, in token order. -/
theorem spec2_C2_theorem (imageAreas : List Rect) (canvasHeight : ℚ)
    (items : List Token) :
    (PDFPreview.drawHighlight imageAreas canvasHeight items =
      (items.map (highlightRect canvasHeight)).filter
        (fun r => !intersectsWithImage imageAreas r)) ∧
    (∀ r ∈ PDFPreview.drawHighlight imageAreas canvasHeight items,
      ∀ a ∈ imageAreas, ¬ overlapsFour r a) ∧
    (∀ r a : Rect, 0 < r.width → 0 < r.height → 0 < a.width → 0 < a.height →
      (overlapsFour r a ↔
        (max r.x a.x < min (r.x + r.width) (a.x + a.width) ∧
          max r.y a.y < min (r.y + r.height) (a.y + a.height)))) := by
  refine ⟨drawHighlight_eq_filter imageAreas canvasHeight items,
    fun r hr a ha => drawHighlight_no_overlap imageAreas canvasHeight items r hr a ha,
    fun r a hw hh haw hah => ?_⟩
  rw [overlapsFour]
  simp only [max_lt_iff, lt_min_iff]
  constructor
  · rintro ⟨h1, h2, h3, h4⟩
    exact ⟨⟨⟨by linarith, h2⟩, ⟨h1, by linarith⟩⟩, ⟨⟨by linarith, h4⟩, ⟨h3, by linarith⟩⟩⟩
  · rintro ⟨⟨⟨-, h2⟩, ⟨h1, -⟩⟩, ⟨⟨-, h4⟩, ⟨h3, -⟩⟩⟩
    exact ⟨h1, h2, h3, h4⟩

/-- Witness for C2: with one image region, the overlapping token rectangle
is dropped and the surviving rectangle does not overlap the region. -/
theorem spec2_C2_witness :
    ¬ overlapsFour ⟨50, 70, 10, 10⟩ ⟨0, 0, 20, 20⟩ :=
  (spec2_C2_theorem [⟨0, 0, 20, 20⟩] 100
      [⟨str "a", false, 5, 85, 10, 10⟩, ⟨str "b", false, 50, 20, 10, 10⟩]).2.1
    ⟨50, 70, 10, 10⟩ (by with_unfolding_all decide)
    ⟨0, 0, 20, 20⟩ (by with_unfolding_all decide)

/-- The token of Scenario E: origin (10, 700), size (50, 12). -/
def scenarioEToken : Token := ⟨str "tok", false, 10, 700, 50, 12⟩

/-- C6: every rectangle `drawHighlight` emits is the bottom-left to
top-left flip of some input token — `{x: transform[4],
y: canvasHeight - transform[5] - height, width, height}` — with x, width
and height unchanged; with no image regions every token is emitted, and
the Scenario E token at page height 792 projects to y = 792 - 700 - 12 = 80. -/
theorem spec2_C6_theorem :
    (∀ (canvasHeight : ℚ) (items : List Token),
      PDFPreview.drawHighlight [] canvasHeight items =
        items.map (highlightRect canvasHeight)) ∧
    (∀ (imageAreas : List Rect) (canvasHeight : ℚ) (items : List Token)
        (r : Rect), r ∈ PDFPreview.drawHighlight imageAreas canvasHeight items →
      ∃ item, item ∈ items ∧
        r = ⟨item.transform4, canvasHeight - item.transform5 - item.height,
          item.width, item.height⟩) ∧
    PDFPreview.drawHighlight [] 792 [scenarioEToken] = [⟨10, 80, 50, 12⟩] ∧
    (792 : ℚ) - 700 - 12 = 80 := by
  refine ⟨fun canvasHeight items => ?_, fun imageAreas canvasHeight items r hr => ?_,
    by with_unfolding_all decide, by norm_num⟩
  · rw [drawHighlight_eq_filter]
    apply List.filter_eq_self.mpr
    intro r hr
    simp [intersectsWithImage]
  · rw [drawHighlight_eq_filter] at hr
    have hmem := List.mem_of_mem_filter hr
    rcases List.mem_map.mp hmem with ⟨item, hitem, rfl⟩
    exact ⟨item, hitem, rfl⟩

/-- Witness for C6: the emitted Scenario E rectangle is the flip of the
Scenario E token. -/
theorem spec2_C6_witness :
    ∃ item, item ∈ [scenarioEToken] ∧
      (⟨10, 80, 50, 12⟩ : Rect) =
        ⟨item.transform4, 792 - item.transform5 - item.height,
          item.width, item.height⟩ :=
  spec2_C6_theorem.2.1 [] 792 [scenarioEToken] ⟨10, 80, 50, 12⟩
    (by with_unfolding_all decide)

/-! ### Render tracker claims -/

theorem jsSetDedupGo_append_singleton {α : Type} [DecidableEq α] (p : α) :
    ∀ (prev seen : List α), prev.Nodup → (∀ y ∈ prev, y ∉ seen) →
      jsSetDedupGo seen (prev ++ [p]) =
        prev ++ (if p ∈ seen ∨ p ∈ prev then [] else [p]) := by
  intro prev
  induction prev with
  | nil =>
    intro seen _ _
    by_cases hp : p ∈ seen <;> simp [jsSetDedupGo, hp]
  | cons x prev ih =>
    intro seen hnd hsub
    have hx : x ∉ seen := hsub x (List.mem_cons_self x prev)
    have hsub' : ∀ y ∈ prev, y ∉ seen ++ [x] := by
      intro y hy
      simp only [List.mem_append, List.mem_singleton]
      rintro (hys | rfl)
      · exact hsub y (List.mem_cons_of_mem x hy) hys
      · exact (List.nodup_cons.mp hnd).1 hy
    have hiff : (p ∈ seen ++ [x] ∨ p ∈ prev) ↔ (p ∈ seen ∨ p ∈ x :: prev) := by
      simp only [List.mem_append, List.mem_singleton, List.mem_cons]
      tauto
    rw [List.cons_append, jsSetDedupGo, if_neg hx,
      ih (seen ++ [x]) (List.nodup_cons.mp hnd).2 hsub', List.cons_append,
      if_congr hiff rfl rfl]

theorem onRenderSuccess_eq (prev : List ℕ) (pageNumber : ℕ)
    (hnd : prev.Nodup) :
    onRenderSuccess prev pageNumber =
      if pageNumber ∈ prev then prev else prev ++ [pageNumber] := by
  rw [onRenderSuccess, jsSetDedup,
    jsSetDedupGo_append_singleton pageNumber prev [] hnd (by simp)]
  by_cases hp : pageNumber ∈ prev <;> simp [hp]

/-- C4 fails on the code: with totalPages = 1, after `onPageReady(1)` the
tracker is complete, but the progress value the overlay computes is
`(1 / 1) * 95 = 95` percent — as a fraction 95/100, which is neither
`|RenderedSet| / totalPages = 1` nor 1.0 at completion. -/
theorem spec2_C4_counterexample :
    loadingComplete (onRenderSuccess [] 1) 1 ∧
    progressPercent (onRenderSuccess [] 1) 1 = 95 ∧
    (95 : ℚ) / 100 ≠ 1 ∧
    progressPercent (onRenderSuccess [] 1) 1 / 100 ≠
      ((onRenderSuccess [] 1).length : ℚ) / 1 := by
  refine ⟨by with_unfolding_all decide, by with_unfolding_all decide,
    by norm_num, by with_unfolding_all decide⟩

/-- C4 amended: the computed progress equals
`95 × |RenderedSet| / totalPages` (in percent, 0 when nothing is rendered
yet), is monotonically non-decreasing across `onPageReady` calls, and
attains the value 95 — not 100 — exactly when the completion condition
`renderedPages.length === numPages` (with `numPages > 0`) holds. -/
theorem spec2_C4_amended_theorem (rendered : List ℕ) (numPages pageNumber : ℕ)
    (hnd : rendered.Nodup) (h1 : 1 ≤ numPages) :
    progressPercent rendered numPages = 95 * (rendered.length : ℚ) / numPages ∧
    progressPercent rendered numPages ≤
      progressPercent (onRenderSuccess rendered pageNumber) numPages ∧
    (progressPercent rendered numPages = 95 ↔
      loadingComplete rendered numPages) := by
  have hn : (0 : ℚ) < numPages := by exact_mod_cast h1
  refine ⟨?_, ?_, ?_⟩
  · by_cases h : rendered.length = 0
    · simp [progressPercent, h]
    · rw [progressPercent, if_neg h]
      ring
  · rw [onRenderSuccess_eq rendered pageNumber hnd]
    by_cases hp : pageNumber ∈ rendered
    · simp [hp]
    · rw [if_neg hp]
      by_cases h : rendered.length = 0
      · rw [progressPercent, if_pos h, progressPercent,
          if_neg (by simp [List.length_append])]
        positivity
      · rw [progressPercent, if_neg h, progressPercent,
          if_neg (by simp [List.length_append]), List.length_append,
          List.length_singleton]
        have hle : (rendered.length : ℚ) ≤ (rendered.length + 1 : ℕ) := by
          push_cast
          linarith
        gcongr
  · rw [loadingComplete]
    by_cases h : rendered.length = 0
    · rw [progressPercent, if_pos h]
      constructor
      · intro habs
        exact absurd habs (by norm_num)
      · rintro ⟨hpos, hlen⟩
        omega
    · rw [progressPercent, if_neg h]
      constructor
      · intro heq
        have : (rendered.length : ℚ) = numPages := by
          field_simp at heq
          linarith
        exact ⟨h1, by exact_mod_cast this⟩
      · rintro ⟨-, hlen⟩
        rw [hlen]
        field_simp

/-- Witness for C4 (amended) at rendered = [1], totalPages = 2, next
ready page 2. -/
theorem spec2_C4_witness :
    progressPercent [1] 2 = 95 * (([1] : List ℕ).length : ℚ) / 2 ∧
    progressPercent [1] 2 ≤ progressPercent (onRenderSuccess [1] 2) 2 ∧
    (progressPercent [1] 2 = 95 ↔ loadingComplete [1] 2) :=
  spec2_C4_amended_theorem [1] 2 2 (by decide) (by decide)

/-! ### Locator claims: exact consecutive-line quotes (C5) -/

/-- A token carrying only text (geometry fields zero), for concrete
scenario inputs. -/
def mkTok (s : String) : Token := ⟨str s, false, 0, 0, 0, 0⟩

/-- The normalized text of a non-empty run of consecutive lines, joined by
single spaces — the combined text the locator builds when its span covers
exactly these lines. -/
def joinSegs : List (List Token) → Str
  | [] => []
  | [l] => normalizeSeg l
  | l :: rest => normalizeSeg l ++ ' ' :: joinSegs rest

/-- A match that the `PDFPreview.tsx` locator can have recorded: score
above the 0.8 threshold and a non-empty span. -/
abbrev goodMatch (m : Match) : Prop := (8 : ℚ) / 10 < m.score ∧ m.lines ≠ []

theorem compareTwoStrings_self (s : Str) : compareTwoStrings s s = 1 := by
  simp [compareTwoStrings]

theorem goodMatch_findBestMatchGo (nq : Str) :
    ∀ (ls : List (List Token)) (combined : Str) (taken : List (List Token))
      (best : Match), goodMatch best →
      goodMatch (PDFPreview.findBestMatchGo nq combined taken best ls) := by
  intro ls
  induction ls with
  | nil => intro combined taken best hb; exact hb
  | cons l rest ih =>
    intro combined taken best hb
    simp only [PDFPreview.findBestMatchGo]
    set c := combined ++ (if taken.isEmpty then [] else [' ']) ++ normalizeSeg l
      with hc
    by_cases hup : (8 : ℚ) / 10 < compareTwoStrings c nq
    · rw [if_pos hup]
      by_cases hbr : (nq.length : ℚ) * (3 / 2) < (c.length : ℚ)
      · rw [if_pos hbr]
        exact ⟨hup, by simp⟩
      · rw [if_neg hbr]
        exact ih c (taken ++ [l]) _ ⟨hup, by simp⟩
    · rw [if_neg hup]
      by_cases hbr : (nq.length : ℚ) * (3 / 2) < (c.length : ℚ)
      · rw [if_pos hbr]
        exact hb
      · rw [if_neg hbr]
        exact ih c (taken ++ [l]) best hb

theorem goodMatch_findBestMatchGo_exact (nq : Str) :
    ∀ (mid : List (List Token)), mid ≠ [] →
      ∀ (post : List (List Token)) (combined : Str)
        (taken : List (List Token)) (best : Match),
        combined ++ (if taken.isEmpty then [] else [' ']) ++ joinSegs mid = nq →
        goodMatch
          (PDFPreview.findBestMatchGo nq combined taken best (mid ++ post)) := by
  intro mid
  induction mid with
  | nil => intro h; exact absurd rfl h
  | cons l mid ih =>
    intro _ post combined taken best hinv
    cases mid with
    | nil =>
      simp only [joinSegs] at hinv
      simp only [List.cons_append, List.nil_append, PDFPreview.findBestMatchGo]
      set c := combined ++ (if taken.isEmpty then [] else [' ']) ++ normalizeSeg l
        with hc
      rw [hinv, compareTwoStrings_self,
        if_pos (by norm_num : (8 : ℚ) / 10 < 1)]
      by_cases hbr : (nq.length : ℚ) * (3 / 2) < (nq.length : ℚ)
      · rw [if_pos hbr]
        exact ⟨by norm_num, by simp⟩
      · rw [if_neg hbr]
        exact goodMatch_findBestMatchGo nq post nq (taken ++ [l]) _
          ⟨by norm_num, by simp⟩
    | cons m mid2 =>
      simp only [List.cons_append, PDFPreview.findBestMatchGo]
      set c := combined ++ (if taken.isEmpty then [] else [' ']) ++ normalizeSeg l
        with hc
      have hinv' :
          c ++ (if (taken ++ [l]).isEmpty then [] else [' ']) ++
            joinSegs (m :: mid2) = nq := by
        rw [hc, if_neg (by simp : ¬((taken ++ [l]).isEmpty = true))]
        simp only [joinSegs] at hinv
        simpa [List.append_assoc] using hinv
      have hlen : c.length ≤ nq.length := by
        rw [← hinv']
        simp [List.length_append]
      have hnobreak : ¬ ((nq.length : ℚ) * (3 / 2) < (c.length : ℚ)) := by
        push_neg
        have h1 : (c.length : ℚ) ≤ (nq.length : ℚ) := by exact_mod_cast hlen
        have h2 : (0 : ℚ) ≤ (nq.length : ℚ) := by positivity
        linarith
      rw [if_neg hnobreak]
      exact ih (by simp) post c (taken ++ [l]) _ hinv'

theorem goodMatch_findBestMatchOuter (nq : Str) :
    ∀ (ls : List (List Token)) (best : Match), goodMatch best →
      goodMatch (PDFPreview.findBestMatchOuter nq best ls) := by
  intro ls
  induction ls with
  | nil => intro best hb; exact hb
  | cons l rest ih =>
    intro best hb
    rw [PDFPreview.findBestMatchOuter]
    exact ih _ (goodMatch_findBestMatchGo nq _ _ _ _ hb)

theorem goodMatch_findBestMatchOuter_exact (nq : Str) :
    ∀ (pre mid post : List (List Token)) (best : Match), mid ≠ [] →
      joinSegs mid = nq →
      goodMatch (PDFPreview.findBestMatchOuter nq best (pre ++ mid ++ post)) := by
  intro pre
  induction pre with
  | nil =>
    intro mid post best hmid hj
    cases mid with
    | nil => exact absurd rfl hmid
    | cons l mid2 =>
      simp only [List.nil_append, List.cons_append, PDFPreview.findBestMatchOuter]
      apply goodMatch_findBestMatchOuter
      exact goodMatch_findBestMatchGo_exact nq (l :: mid2) (by simp) post [] []
        best (by simpa using hj)
  | cons q pre ih =>
    intro mid post best hmid hj
    simp only [List.cons_append, PDFPreview.findBestMatchOuter]
    exact ih mid post _ hmid hj

/-- C5 fails on the code: the quote "hello world" is exactly the
normalized text of the first line alone, yet with a second similar line
("Hello worlx", similarity 8/9 > 0.8) the locator's last-above-threshold
update overwrites the perfect match: it returns score 8/9 — not 1.0 — and
the second line, not the line the quote equals. -/
theorem spec2_C5_counterexample :
    trimStr (toLowerStr (str "hello world")) = joinSegs [[mkTok "Hello world"]] ∧
    PDFPreview.findBestMatch [[mkTok "Hello world"], [mkTok "Hello worlx"]]
        (str "hello world") = ⟨8 / 9, [[mkTok "Hello worlx"]]⟩ ∧
    (8 : ℚ) / 9 ≠ 1 ∧
    ([[mkTok "Hello worlx"]] : List (List Token)) ≠ [[mkTok "Hello world"]] := by
  refine ⟨by with_unfolding_all decide, by with_unfolding_all decide,
    by norm_num, by with_unfolding_all decide⟩

/-- C5 amended: for every quote equal to the space-joined lower-cased
trimmed concatenation of one or more consecutive lines, the locator
returns a non-empty span with score above the 0.8 threshold — but not
necessarily score 1.0 nor exactly those lines, because any later span
scoring above 0.8 overwrites the recorded match; on Scenario A's lines
["Hello world", "this is a test"] with quote
"hello world this is a test" it does return both lines with score 1.0. -/
theorem spec2_C5_amended_theorem (pre mid post : List (List Token))
    (quote : Str) (hmid : mid ≠ [])
    (hq : trimStr (toLowerStr quote) = joinSegs mid) :
    ((8 : ℚ) / 10 <
        (PDFPreview.findBestMatch (pre ++ mid ++ post) quote).score ∧
      (PDFPreview.findBestMatch (pre ++ mid ++ post) quote).lines ≠ []) ∧
    PDFPreview.findBestMatch [[mkTok "Hello world"], [mkTok "this is a test"]]
        (str "hello world this is a test") =
      ⟨1, [[mkTok "Hello world"], [mkTok "this is a test"]]⟩ := by
  refine ⟨?_, by with_unfolding_all decide⟩
  exact goodMatch_findBestMatchOuter_exact (trimStr (toLowerStr quote))
    pre mid post ⟨-1, []⟩ hmid hq.symm

/-- Witness for C5 (amended): a one-line page whose single line is exactly
the quote. -/
theorem spec2_C5_witness :
    ((8 : ℚ) / 10 <
        (PDFPreview.findBestMatch ([] ++ [[mkTok "hello world"]] ++ [])
          (str "hello world")).score ∧
      (PDFPreview.findBestMatch ([] ++ [[mkTok "hello world"]] ++ [])
        (str "hello world")).lines ≠ []) ∧
    PDFPreview.findBestMatch [[mkTok "Hello world"], [mkTok "this is a test"]]
        (str "hello world this is a test") =
      ⟨1, [[mkTok "Hello world"], [mkTok "this is a test"]]⟩ :=
  spec2_C5_amended_theorem [] [[mkTok "hello world"]] [] (str "hello world")
    (by decide) (by decide)

/-! ### Locator claims: fold characterisation over the enumeration (C1, C10) -/

theorem findBestMatchGo_eq_foldl_thresh (nq : Str) :
    ∀ (ls : List (List Token)) (combined : Str) (taken : List (List Token))
      (best : Match),
      PDFPreview.findBestMatchGo nq combined taken best ls =
        List.foldl stepThresh best (enumSpansGo nq combined taken ls) := by
  intro ls
  induction ls with
  | nil => intro combined taken best; rfl
  | cons l rest ih =>
    intro combined taken best
    simp only [PDFPreview.findBestMatchGo, enumSpansGo]
    set c := combined ++ (if taken.isEmpty then [] else [' ']) ++ normalizeSeg l
      with hc
    by_cases hbr : (nq.length : ℚ) * (3 / 2) < (c.length : ℚ)
    · rw [if_pos hbr, if_pos hbr]
      rfl
    · rw [if_neg hbr, if_neg hbr, ih]
      rfl

theorem findBestMatchGo_eq_foldl_max (nq : Str) :
    ∀ (ls : List (List Token)) (combined : Str) (taken : List (List Token))
      (best : Match),
      App.findBestMatchGo nq combined taken best ls =
        List.foldl stepMax best (enumSpansGo nq combined taken ls) := by
  intro ls
  induction ls with
  | nil => intro combined taken best; rfl
  | cons l rest ih =>
    intro combined taken best
    simp only [App.findBestMatchGo, enumSpansGo]
    set c := combined ++ (if taken.isEmpty then [] else [' ']) ++ normalizeSeg l
      with hc
    by_cases hbr : (nq.length : ℚ) * (3 / 2) < (c.length : ℚ)
    · rw [if_pos hbr, if_pos hbr]
      rfl
    · rw [if_neg hbr, if_neg hbr, ih]
      rfl

theorem findBestMatchOuter_eq_foldl_thresh (nq : Str) :
    ∀ (ls : List (List Token)) (best : Match),
      PDFPreview.findBestMatchOuter nq best ls =
        List.foldl stepThresh best (enumSpans nq ls) := by
  intro ls
  induction ls with
  | nil => intro best; rfl
  | cons l rest ih =>
    intro best
    rw [PDFPreview.findBestMatchOuter, ih, enumSpans, List.foldl_append,
      ← findBestMatchGo_eq_foldl_thresh]

theorem findBestMatchOuter_eq_foldl_max (nq : Str) :
    ∀ (ls : List (List Token)) (best : Match),
      App.findBestMatchOuter nq best ls =
        List.foldl stepMax best (enumSpans nq ls) := by
  intro ls
  induction ls with
  | nil => intro best; rfl
  | cons l rest ih =>
    intro best
    rw [App.findBestMatchOuter, ih, enumSpans, List.foldl_append,
      ← findBestMatchGo_eq_foldl_max]

/-- The `PDFPreview.tsx` locator is the fold of the threshold update step
over the spec's bounded enumeration of candidate spans. -/
theorem PDFPreview_findBestMatch_eq_foldl (lines : List (List Token))
    (quote : Str) :
    PDFPreview.findBestMatch lines quote =
      List.foldl stepThresh ⟨-1, []⟩
        (enumSpans (trimStr (toLowerStr quote)) lines) := by
  rw [PDFPreview.findBestMatch, findBestMatchOuter_eq_foldl_thresh]

/-- The `App.tsx` locator is the fold of the strictly-greater update step
over the spec's bounded enumeration of candidate spans. -/
theorem App_findBestMatch_eq_foldl (lines : List (List Token)) (quote : Str) :
    App.findBestMatch lines quote =
      List.foldl stepMax ⟨-1, []⟩
        (enumSpans (trimStr (toLowerStr quote)) lines) := by
  rw [App.findBestMatch, findBestMatchOuter_eq_foldl_max]

theorem foldl_stepMax_spec :
    ∀ (l : List Match) (init : Match),
      (∀ e ∈ init :: l, e.score ≤ (List.foldl stepMax init l).score) ∧
      (init :: l).find?
          (fun e => decide ((List.foldl stepMax init l).score ≤ e.score)) =
        some (List.foldl stepMax init l) := by
  intro l
  induction l with
  | nil =>
    intro init
    refine ⟨?_, by simp [List.find?]⟩
    intro e he
    rw [List.mem_singleton] at he
    rw [he, List.foldl_nil]
  | cons a as ih =>
    intro init
    rw [List.foldl_cons]
    rcases ih (stepMax init a) with ⟨ih1, ih2⟩
    by_cases h : init.score < a.score
    · have hs : stepMax init a = a := by rw [stepMax, if_pos h]
      rw [hs] at ih1 ih2 ⊢
      have hra : a.score ≤ (List.foldl stepMax a as).score :=
        ih1 a (List.mem_cons_self a as)
      constructor
      · intro e he
        rcases List.mem_cons.mp he with rfl | he2
        · exact le_of_lt (lt_of_lt_of_le h hra)
        · exact ih1 e he2
      · have hpi : ¬ ((List.foldl stepMax a as).score ≤ init.score) :=
          not_le.mpr (lt_of_lt_of_le h hra)
        rw [List.find?_cons_of_neg _ (by simpa using hpi)]
        exact ih2
    · have hs : stepMax init a = init := by rw [stepMax, if_neg h]
      rw [hs] at ih1 ih2 ⊢
      have ha : a.score ≤ init.score := not_lt.mp h
      constructor
      · intro e he
        rcases List.mem_cons.mp he with rfl | he2
        · exact ih1 e (List.mem_cons_self e as)
        · rcases List.mem_cons.mp he2 with rfl | he3
          · exact le_trans ha (ih1 init (List.mem_cons_self init as))
          · exact ih1 e (List.mem_cons_of_mem init he3)
      · by_cases hpi : (List.foldl stepMax init as).score ≤ init.score
        · have hfi : (init :: as).find?
              (fun e => decide ((List.foldl stepMax init as).score ≤ e.score)) =
                some init :=
            List.find?_cons_of_pos _ (by simpa using hpi)
          rw [hfi] at ih2
          rw [List.find?_cons_of_pos _ (by simpa using hpi)]
          exact ih2
        · have hfi : (init :: as).find?
              (fun e => decide ((List.foldl stepMax init as).score ≤ e.score)) =
                as.find?
                  (fun e => decide ((List.foldl stepMax init as).score ≤ e.score)) :=
            List.find?_cons_of_neg _ (by simpa using hpi)
          rw [hfi] at ih2
          have hpa : ¬ ((List.foldl stepMax init as).score ≤ a.score) := by
            intro hcon
            exact hpi (le_trans hcon ha)
          rw [List.find?_cons_of_neg _ (by simpa using hpi),
            List.find?_cons_of_neg _ (by simpa using hpa)]
          exact ih2

/-- A token with text and a distinguishing x-coordinate. -/
def mkTokX (s : String) (x : ℚ) : Token := ⟨str s, false, x, 0, 0, 0⟩

/-- C1 fails on the code of `PDFPreview.tsx`: its `findBestMatch` compares
against the fixed 0.8 threshold rather than the best score so far, so (a)
on two identical lines "hello" with quote "hello" the later span (score 1,
equal to the earlier span's score) replaces the earlier one — the `App.tsx`
variant keeps the earlier span — and (b) when no span beats 0.8 it returns
score -1 and no span even though the enumeration contains a best-scoring
span (score 0 for line "ab" against quote "xy"). -/
theorem spec2_C1_counterexample :
    PDFPreview.findBestMatch [[mkTokX "hello" 0], [mkTokX "hello" 100]]
        (str "hello") = ⟨1, [[mkTokX "hello" 100]]⟩ ∧
    App.findBestMatch [[mkTokX "hello" 0], [mkTokX "hello" 100]]
        (str "hello") = ⟨1, [[mkTokX "hello" 0]]⟩ ∧
    ([[mkTokX "hello" 100]] : List (List Token)) ≠ [[mkTokX "hello" 0]] ∧
    PDFPreview.findBestMatch [[mkTokX "ab" 0]] (str "xy") = ⟨-1, []⟩ ∧
    enumSpans (trimStr (toLowerStr (str "xy"))) [[mkTokX "ab" 0]] =
      [⟨0, [[mkTokX "ab" 0]]⟩] := by
  refine ⟨by with_unfolding_all decide, by with_unfolding_all decide,
    by with_unfolding_all decide, by with_unfolding_all decide,
    by with_unfolding_all decide⟩

/-- C1 amended: the claim holds for the `App.tsx` locator (strictly-greater
comparison against the best score so far): its result scores at least every
entry of the bounded enumeration — irrespective of any threshold — and is
the earliest-enumerated entry attaining that score (the sentinel
`{score: -1, lines: []}` standing for the empty enumeration); the
`PDFPreview.tsx` locator instead records any span scoring above the fixed
0.8 threshold, so the latest such span wins and sub-threshold bests are
discarded. -/
theorem spec2_C1_amended_theorem (lines : List (List Token)) (quote : Str) :
    (∀ e ∈ (⟨-1, []⟩ : Match) ::
        enumSpans (trimStr (toLowerStr quote)) lines,
      e.score ≤ (App.findBestMatch lines quote).score) ∧
    ((⟨-1, []⟩ : Match) :: enumSpans (trimStr (toLowerStr quote)) lines).find?
        (fun e => decide ((App.findBestMatch lines quote).score ≤ e.score)) =
      some (App.findBestMatch lines quote) := by
  rw [App_findBestMatch_eq_foldl]
  exact foldl_stepMax_spec (enumSpans (trimStr (toLowerStr quote)) lines)
    ⟨-1, []⟩

/-- Witness for C1 (amended): on lines ["ab"] with quote "ab" the perfect
span of the enumeration bounds the returned score, and the returned match
is the first enumeration entry attaining it. -/
theorem spec2_C1_witness :
    ((⟨1, [[mkTokX "ab" 0]]⟩ : Match).score ≤
      (App.findBestMatch [[mkTokX "ab" 0]] (str "ab")).score) ∧
    ((⟨-1, []⟩ : Match) ::
        enumSpans (trimStr (toLowerStr (str "ab"))) [[mkTokX "ab" 0]]).find?
        (fun e => decide
          ((App.findBestMatch [[mkTokX "ab" 0]] (str "ab")).score ≤ e.score)) =
      some (App.findBestMatch [[mkTokX "ab" 0]] (str "ab")) :=
  ⟨(spec2_C1_amended_theorem [[mkTokX "ab" 0]] (str "ab")).1
      ⟨1, [[mkTokX "ab" 0]]⟩ (by with_unfolding_all decide),
    (spec2_C1_amended_theorem [[mkTokX "ab" 0]] (str "ab")).2⟩

theorem enumSpansGo_lines_ne (nq : Str) :
    ∀ (ls : List (List Token)) (combined : Str) (taken : List (List Token))
      (e : Match), e ∈ enumSpansGo nq combined taken ls → e.lines ≠ [] := by
  intro ls
  induction ls with
  | nil => intro combined taken e he; simp [enumSpansGo] at he
  | cons l rest ih =>
    intro combined taken e he
    simp only [enumSpansGo] at he
    set c := combined ++ (if taken.isEmpty then [] else [' ']) ++ normalizeSeg l
      with hc
    by_cases hbr : (nq.length : ℚ) * (3 / 2) < (c.length : ℚ)
    · rw [if_pos hbr, List.mem_singleton] at he
      rw [he]
      simp
    · rw [if_neg hbr] at he
      rcases List.mem_cons.mp he with rfl | he2
      · simp
      · exact ih c (taken ++ [l]) e he2

theorem enumSpans_lines_ne (nq : Str) :
    ∀ (ls : List (List Token)) (e : Match),
      e ∈ enumSpans nq ls → e.lines ≠ [] := by
  intro ls
  induction ls with
  | nil => intro e he; simp [enumSpans] at he
  | cons l rest ih =>
    intro e he
    rw [enumSpans, List.mem_append] at he
    rcases he with he | he
    · exact enumSpansGo_lines_ne nq _ _ _ e he
    · exact ih e he

theorem foldl_stepThresh_lines_ne :
    ∀ (l : List Match) (best : Match), best.lines ≠ [] →
      (∀ e ∈ l, e.lines ≠ []) → (List.foldl stepThresh best l).lines ≠ [] := by
  intro l
  induction l with
  | nil => intro best hb _; exact hb
  | cons a as ih =>
    intro best hb hl
    rw [List.foldl_cons]
    apply ih
    · rw [stepThresh]
      split
      · exact hl a (List.mem_cons_self a as)
      · exact hb
    · intro e he
      exact hl e (List.mem_cons_of_mem a he)

theorem foldl_stepThresh_nonempty_iff :
    ∀ (l : List Match) (best : Match), best.lines = [] →
      (∀ e ∈ l, e.lines ≠ []) →
      ((List.foldl stepThresh best l).lines ≠ [] ↔
        ∃ e ∈ l, (8 : ℚ) / 10 < e.score) := by
  intro l
  induction l with
  | nil =>
    intro best hb _
    simp [hb]
  | cons a as ih =>
    intro best hb hl
    rw [List.foldl_cons, stepThresh]
    by_cases h : (8 : ℚ) / 10 < a.score
    · rw [if_pos h]
      constructor
      · intro _
        exact ⟨a, List.mem_cons_self a as, h⟩
      · intro _
        exact foldl_stepThresh_lines_ne as a (hl a (List.mem_cons_self a as))
          (fun e he => hl e (List.mem_cons_of_mem a he))
    · rw [if_neg h,
        ih best hb (fun e he => hl e (List.mem_cons_of_mem a he))]
      constructor
      · rintro ⟨e, he, hse⟩
        exact ⟨e, List.mem_cons_of_mem a he, hse⟩
      · rintro ⟨e, he, hse⟩
        rcases List.mem_cons.mp he with rfl | he2
        · exact absurd hse h
        · exact ⟨e, he2, hse⟩

theorem foldl_stepThresh_score :
    ∀ (l : List Match) (best : Match),
      (best.lines ≠ [] → (8 : ℚ) / 10 < best.score) →
      ((List.foldl stepThresh best l).lines ≠ [] →
        (8 : ℚ) / 10 < (List.foldl stepThresh best l).score) := by
  intro l
  induction l with
  | nil => intro best hb; exact hb
  | cons a as ih =>
    intro best hb
    rw [List.foldl_cons, stepThresh]
    split
    · next h => exact ih a (fun _ => h)
    · exact ih best hb

theorem foldl_stepThresh_eq_or_ne :
    ∀ (l : List Match) (best : Match), (∀ e ∈ l, e.lines ≠ []) →
      (List.foldl stepThresh best l = best ∨
        (List.foldl stepThresh best l).lines ≠ []) := by
  intro l
  induction l with
  | nil => intro best _; exact Or.inl rfl
  | cons a as ih =>
    intro best hl
    rw [List.foldl_cons, stepThresh]
    split
    · right
      exact foldl_stepThresh_lines_ne as a (hl a (List.mem_cons_self a as))
        (fun e he => hl e (List.mem_cons_of_mem a he))
    · exact ih best (fun e he => hl e (List.mem_cons_of_mem a he))

/-- C10: the `PDFPreview.tsx` locator returns a non-empty span exactly when
some enumerated span scores strictly above the fixed 0.8 threshold; a
non-empty result always scores above 0.8, and otherwise the result is
`{score: -1, lines: []}`, in which case `applyHighlight` publishes zero
rectangles. -/
theorem spec2_C10_theorem (imageAreas : List Rect) (canvasHeight : ℚ)
    (lines : List (List Token)) (quote : Str) :
    ((PDFPreview.findBestMatch lines quote).lines ≠ [] ↔
      ∃ e ∈ enumSpans (trimStr (toLowerStr quote)) lines,
        (8 : ℚ) / 10 < e.score) ∧
    ((PDFPreview.findBestMatch lines quote).lines ≠ [] →
      (8 : ℚ) / 10 < (PDFPreview.findBestMatch lines quote).score) ∧
    ((PDFPreview.findBestMatch lines quote).lines = [] →
      PDFPreview.findBestMatch lines quote = ⟨-1, []⟩ ∧
      PDFPreview.applyHighlight imageAreas canvasHeight lines quote = []) := by
  have hne := enumSpans_lines_ne (trimStr (toLowerStr quote)) lines
  have hfold := PDFPreview_findBestMatch_eq_foldl lines quote
  refine ⟨?_, ?_, ?_⟩
  · rw [hfold]
    exact foldl_stepThresh_nonempty_iff _ _ rfl hne
  · rw [hfold]
    exact foldl_stepThresh_score _ _ (fun habs => absurd rfl habs)
  · intro hres
    have h1 : PDFPreview.findBestMatch lines quote = ⟨-1, []⟩ := by
      rcases foldl_stepThresh_eq_or_ne
          (enumSpans (trimStr (toLowerStr quote)) lines) ⟨-1, []⟩ hne with
        heq | hne2
      · rw [hfold, heq]
      · rw [hfold] at hres
        exact absurd hres hne2
    have hemp : (PDFPreview.findBestMatch lines quote).lines.isEmpty = true := by
      rw [h1]
      rfl
    refine ⟨h1, ?_⟩
    simp [PDFPreview.applyHighlight, hemp]

/-- Witness for C10: a page whose single line equals the quote produces a
score above 0.8; an empty page produces the -1 sentinel and zero published
rectangles. -/
theorem spec2_C10_witness :
    ((8 : ℚ) / 10 <
      (PDFPreview.findBestMatch [[mkTokX "ab" 0]] (str "ab")).score) ∧
    (PDFPreview.findBestMatch [] (str "x") = ⟨-1, []⟩ ∧
      PDFPreview.applyHighlight [] 0 [] (str "x") = []) :=
  ⟨(spec2_C10_theorem [] 0 [[mkTokX "ab" 0]] (str "ab")).2.1
      (by with_unfolding_all decide),
    (spec2_C10_theorem [] 0 [] (str "x")).2.2 (by with_unfolding_all decide)⟩
